import Mathlib

/-!
Shallow embedding of the bigram histogram crate (`src/lib.rs`, `src/main.rs`).

Strings are modelled as `List Char` (Rust `&str` / `String` over Unicode
scalar values).  The byte indices returned by `Regex::find` for the pattern
`[^a-z0-9 ]+` always fall on character boundaries, so the byte-oriented
`split_at` / `len` arithmetic of the source coincides with the
character-oriented arithmetic used here.

The `u32` counters are modelled as `Nat` reduced modulo `2 ^ 32` at each
increment (wrapping semantics of `count + 1`).
-/

/-- Rust string slices, as lists of Unicode scalar values. -/
abbrev Str := List Char

/-- Converts a Lean string literal to the `List Char` representation. -/
def str (s : String) : Str := s.data

/-- Complement of the character class of the regex `[^a-z0-9 ]+`: the
characters the source treats as legal inside a word (lowercase ASCII
letters, digits, and the space character). -/
def allowed_char (c : Char) : Bool :=
  decide (('a' ≤ c ∧ c ≤ 'z') ∨ ('0' ≤ c ∧ c ≤ '9') ∨ c = ' ')

/-- Lowercase alphanumeric ASCII characters: the alphabet of finished tokens. -/
def isAlnum (c : Char) : Bool :=
  decide (('a' ≤ c ∧ c ≤ 'z') ∨ ('0' ≤ c ∧ c ≤ '9'))

/-- Unicode white space, as tested by Rust `char::is_whitespace` and used by
`str::split_whitespace`. -/
def is_whitespace (c : Char) : Bool :=
  decide (c.toNat = 0x9 ∨ c.toNat = 0xA ∨ c.toNat = 0xB ∨ c.toNat = 0xC ∨
    c.toNat = 0xD ∨ c.toNat = 0x20 ∨ c.toNat = 0x85 ∨ c.toNat = 0xA0 ∨
    c.toNat = 0x1680 ∨ (0x2000 ≤ c.toNat ∧ c.toNat ≤ 0x200A) ∨
    c.toNat = 0x2028 ∨ c.toNat = 0x2029 ∨ c.toNat = 0x202F ∨
    c.toNat = 0x205F ∨ c.toNat = 0x3000)

/-- Rust `to_ascii_lowercase` on one `char`: uppercase ASCII letters move
down by 32 code points, every other character is untouched. -/
def to_ascii_lowercase (c : Char) : Char :=
  if 'A' ≤ c ∧ c ≤ 'Z' then Char.ofNat (c.toNat + 32) else c

/-- Start index of the first match of `[^a-z0-9 ]+` (`re.find(text).start()`),
`none` exactly when `re.is_match(text)` is false. -/
def firstBadIdx : Str → Option Nat
  | [] => none
  | c :: cs => if allowed_char c then (firstBadIdx cs).map (· + 1) else some 0

/-- Length of the leading maximal run of disallowed characters; taken at the
first match's start index this is the distance to the match's end index. -/
def badRunLen : Str → Nat
  | [] => 0
  | c :: cs => if allowed_char c then 0 else badRunLen cs + 1

/-- Shallow embedding of `cleanse_word` from `src/lib.rs`.  `re.is_match` and
`re.find(..).unwrap().start()` become the match on `firstBadIdx`; the match
end `re.find(..).unwrap().end()` is `start_idx + badRunLen (text.drop
start_idx)`; `split_at i` becomes `take i` / `drop i`.  The branch structure
(the three sequential `if`s followed by the fallthrough `Some(text)`) is
kept exactly. -/
def cleanse_word (text : Str) : Option Str :=
  match firstBadIdx text with
  | none => some text
  | some start_idx =>
    let end_idx := start_idx + badRunLen (text.drop start_idx)
    if start_idx ≠ 0 then
      some (text.take start_idx)
    else if text.length > end_idx then
      let temp := text.drop end_idx
      match firstBadIdx temp with
      | some j => some (temp.take j)
      | none => some temp
    else if text.length = end_idx then
      none
    else
      some text

/-- Accumulator-style whitespace splitter; `acc` holds the current word,
reversed. -/
def splitWsAux : Str → Str → List Str
  | [], acc => if acc.isEmpty then [] else [acc.reverse]
  | c :: cs, acc =>
    if is_whitespace c then
      if acc.isEmpty then splitWsAux cs [] else acc.reverse :: splitWsAux cs []
    else
      splitWsAux cs (c :: acc)

/-- Rust `str::split_whitespace`: maximal runs of non-whitespace characters,
with empty pieces dropped. -/
def split_whitespace (s : Str) : List Str := splitWsAux s []

/-- Shallow embedding of `parse_text_into_vec`: split on whitespace, filter
on the cleansed lowercased piece being present, and map each kept piece to
its cleansed form (the source calls `cleanse_word` twice; the `unwrap` in
the `map` is modelled by `Option.getD`, guarded by the `filter`). -/
def parse_text_into_vec (line : Str) : List Str :=
  ((split_whitespace line).filter
      (fun s => (cleanse_word (s.map to_ascii_lowercase)).isSome)).map
    (fun s => (cleanse_word (s.map to_ascii_lowercase)).getD [])

/-- Association-list model of `HashMap<String, u32>`; keys stay unique. -/
abbrev CounterMap := List (Str × Nat)

/-- HashMap `get`: the value stored at `key`, if any. -/
def mapGet : CounterMap → Str → Option Nat
  | [], _ => none
  | (k, v) :: rest, key => if k = key then some v else mapGet rest key

/-- HashMap `insert`: replaces the binding of `key`, or appends a new one. -/
def mapInsert : CounterMap → Str → Nat → CounterMap
  | [], key, v => [(key, v)]
  | (k, w) :: rest, key, v =>
    if k = key then (key, v) :: rest else (k, w) :: mapInsert rest key v

/-- HashMap `contains_key`. -/
def containsKey (cm : CounterMap) (key : Str) : Bool := (mapGet cm key).isSome

/-- Total of all stored counts, used to state conservation invariants. -/
def sumCounts (cm : CounterMap) : Nat := (cm.map Prod.snd).sum

/-- Modulus of the `u32` counters. -/
def U32MOD : Nat := 4294967296

/-- Shallow embedding of `get_key_from_vec`: `get(0)`/`get(1)` with their
`unwrap`s, whose panic on a short buffer is modelled by `none`; the key is
the first element, a space, and the second element. -/
def get_key_from_vec (rolling_vector : List Str) : Option Str :=
  match rolling_vector.get? 0, rolling_vector.get? 1 with
  | some a, some b => some (a ++ ' ' :: b)
  | _, _ => none

/-- Shallow embedding of `calculate_counts`.  A `none` result models a panic
of one of the `unwrap`s; the `u32` increment wraps modulo `2 ^ 32`. -/
def calculate_counts (counter_map : CounterMap) (rolling_vector : List Str)
    (word : Str) : Option (CounterMap × List Str) :=
  let rv := if rolling_vector.length < 2 then rolling_vector ++ [word]
            else rolling_vector
  if rv.length = 2 then
    match get_key_from_vec rv, rv.get? 1 with
    | some key, some second =>
      let cm :=
        if containsKey counter_map key then
          mapInsert counter_map key
            (((mapGet counter_map key).getD 0 + 1) % U32MOD)
        else
          mapInsert counter_map key 1
      some (cm, [second])
    | _, _ => none
  else
    some (counter_map, rv)

/-- One step of the run loop, threading the possibly-panicked state. -/
def feedWord (st : Option (CounterMap × List Str)) (w : Str) :
    Option (CounterMap × List Str) :=
  match st with
  | none => none
  | some (cm, rv) => calculate_counts cm rv w

/-- Feeds a list of tokens, in order, to `calculate_counts`. -/
def feedTokens (st : Option (CounterMap × List Str)) (ws : List Str) :
    Option (CounterMap × List Str) :=
  ws.foldl feedWord st

/-- Number of adjacent occurrences of the ordered pair `(x, y)` in a token
stream. -/
def countAdj (x y : Str) : List Str → Nat
  | a :: b :: rest => (if a = x ∧ b = y then 1 else 0) + countAdj x y (b :: rest)
  | _ => 0

/-- Tokens in the sense of the data model: non-empty, lowercase
alphanumeric ASCII. -/
def isToken (w : Str) : Bool := !w.isEmpty && w.all isAlnum

/-- Shallow embedding of `Config`. -/
structure Config where
  filename : Str

/-- Shallow embedding of `Config::new`: fewer than two arguments is an
error, otherwise the second argument is the file name. -/
def Config.new (args : List Str) : Except Str Config :=
  if args.length < 2 then Except.error (str "Not enough args")
  else Except.ok ⟨args.getD 1 []⟩

/-- Result of pulling one line out of the `read_lines` iterator. -/
inductive LineRead where
  | ok (line : Str)
  | ioError
deriving DecidableEq

/-- Observable end of a run.  `exited code lineNo` models `process::exit`
(`lineNo` is the 0-based line index printed in the diagnostic, when one
is); `finished` models normal completion with the final histogram;
`panicked` models an `unwrap` panic inside the accumulator. -/
inductive Outcome where
  | exited (code : Nat) (lineNo : Option Nat)
  | finished (cm : CounterMap)
  | panicked
deriving DecidableEq

/-- Loop body of `run`: lines are enumerated from 0; a line read error exits
with status 9 naming the line index; a good line is tokenized and fed, one
token at a time, to `calculate_counts`. -/
def runLines : Nat → List LineRead → CounterMap × List Str → Outcome
  | _, [], (cm, _) => Outcome.finished cm
  | i, LineRead.ioError :: _, _ => Outcome.exited 9 (some i)
  | i, LineRead.ok l :: rest, st =>
    match feedTokens (some st) (parse_text_into_vec l) with
    | none => Outcome.panicked
    | some st' => runLines (i + 1) rest st'

/-- Shallow embedding of `run`: a failed `read_lines` (modelled by `none`)
exits with status 9 before any line is processed; otherwise the rolling
buffer and the counter map start empty and persist across all lines. -/
def runModel (openResult : Option (List LineRead)) : Outcome :=
  match openResult with
  | none => Outcome.exited 9 none
  | some lines => runLines 0 lines ([], [])

/-- Shallow embedding of `main`: argument parsing happens before the file is
touched, and a parse failure exits with status 9. -/
def mainModel (args : List Str) (openResult : Option (List LineRead)) :
    Outcome :=
  match Config.new args with
  | Except.error _ => Outcome.exited 9 none
  | Except.ok _ => runModel openResult

theorem firstBadIdx_eq_none_iff (s : Str) :
    firstBadIdx s = none ↔ ∀ c ∈ s, allowed_char c = true := by
  induction s with
  | nil => simp [firstBadIdx]
  | cons c cs ih =>
    by_cases h : allowed_char c = true
    · simp [firstBadIdx, h, ih]
    · simp [firstBadIdx, h]

theorem firstBadIdx_some_take (s : Str) (i : Nat)
    (h : firstBadIdx s = some i) : s.takeWhile allowed_char = s.take i := by
  induction s generalizing i with
  | nil => simp [firstBadIdx] at h
  | cons c cs ih =>
    by_cases hc : allowed_char c = true
    · simp only [firstBadIdx, if_pos hc] at h
      cases hj : firstBadIdx cs with
      | none => rw [hj] at h; simp at h
      | some j =>
        rw [hj] at h
        simp only [Option.map_some'] at h
        cases h
        rw [List.takeWhile_cons, if_pos hc, ih j hj, List.take_succ_cons]
    · simp only [firstBadIdx, if_neg hc] at h
      cases h
      rw [List.takeWhile_cons, if_neg hc, List.take_zero]

theorem drop_badRunLen (s : Str) :
    s.drop (badRunLen s) = s.dropWhile (fun c => !allowed_char c) := by
  induction s with
  | nil => simp [badRunLen]
  | cons c cs ih =>
    by_cases hc : allowed_char c = true
    · simp [badRunLen, hc, List.dropWhile_cons]
    · simp [badRunLen, hc, List.dropWhile_cons, ih]

theorem badRunLen_le (s : Str) : badRunLen s ≤ s.length := by
  induction s with
  | nil => simp [badRunLen]
  | cons c cs ih =>
    by_cases hc : allowed_char c = true
    · simp [badRunLen, hc]
    · simp [badRunLen, hc]; omega

theorem badRunLen_eq_length (s : Str)
    (h : ∀ c ∈ s, allowed_char c = false) : badRunLen s = s.length := by
  induction s with
  | nil => simp [badRunLen]
  | cons c cs ih =>
    have hc : allowed_char c = false := h c (by simp)
    simp only [badRunLen, hc, Bool.false_eq_true, if_false, List.length_cons]
    rw [ih fun d hd => h d (by simp [hd])]

theorem takeWhile_allowed_all (s : Str)
    (h : ∀ c ∈ s, allowed_char c = true) : s.takeWhile allowed_char = s := by
  induction s with
  | nil => simp
  | cons c cs ih =>
    rw [List.takeWhile_cons, if_pos (h c (by simp))]
    rw [ih fun d hd => h d (by simp [hd])]

theorem dropWhile_disallowed_all (s : Str)
    (h : ∀ c ∈ s, allowed_char c = true) :
    s.dropWhile (fun c => !allowed_char c) = s := by
  cases s with
  | nil => simp
  | cons c cs => simp [List.dropWhile_cons, h c (by simp)]

theorem dropWhile_disallowed_ne_nil (s : Str) (c : Char) (hc : c ∈ s)
    (ha : allowed_char c = true) :
    s.dropWhile (fun d => !allowed_char d) ≠ [] := by
  induction s with
  | nil => cases hc
  | cons a as ih =>
    rw [List.dropWhile_cons]
    by_cases hb : allowed_char a = true
    · simp [hb]
    · simp only [hb, Bool.not_false, if_pos]
      rcases List.mem_cons.mp hc with h | h
      · subst h; exact absurd ha hb
      · exact ih h

theorem head_dropWhile_allowed (s : Str) (c : Char) (rest : Str)
    (h : s.dropWhile (fun d => !allowed_char d) = c :: rest) :
    allowed_char c = true := by
  induction s with
  | nil => simp at h
  | cons a as ih =>
    rw [List.dropWhile_cons] at h
    by_cases hb : allowed_char a = true
    · simp only [hb, Bool.not_true, if_neg] at h
      cases h
      exact hb
    · simp only [hb, Bool.not_false, if_pos] at h
      exact ih h

theorem cleanse_word_clean (s : Str)
    (h : ∀ c ∈ s, allowed_char c = true) : cleanse_word s = some s := by
  have hn : firstBadIdx s = none := (firstBadIdx_eq_none_iff s).mpr h
  rw [cleanse_word, hn]


theorem cleanse_word_case1 (s : Str) (i : Nat) (h : firstBadIdx s = some i)
    (hi : i ≠ 0) : cleanse_word s = some (s.take i) := by
  rw [cleanse_word, h]
  simp [hi]

theorem cleanse_word_case2 (s : Str) (j : Nat) (h : firstBadIdx s = some 0)
    (hlt : badRunLen s < s.length)
    (h2 : firstBadIdx (s.drop (badRunLen s)) = some j) :
    cleanse_word s = some ((s.drop (badRunLen s)).take j) := by
  rw [cleanse_word, h]
  simp [h2, hlt]

theorem cleanse_word_case3 (s : Str) (h : firstBadIdx s = some 0)
    (hlt : badRunLen s < s.length)
    (h2 : firstBadIdx (s.drop (badRunLen s)) = none) :
    cleanse_word s = some (s.drop (badRunLen s)) := by
  rw [cleanse_word, h]
  simp [h2, hlt]

theorem cleanse_word_case4 (s : Str) (h : firstBadIdx s = some 0)
    (heq : badRunLen s = s.length) : cleanse_word s = none := by
  rw [cleanse_word, h]
  simp [heq]

theorem cleanse_word_all_bad (s : Str) (hne : s ≠ [])
    (h : ∀ c ∈ s, allowed_char c = false) : cleanse_word s = none := by
  obtain ⟨c, cs, rfl⟩ := List.exists_cons_of_ne_nil hne
  have hc : allowed_char c = false := h c (by simp)
  have h0 : firstBadIdx (c :: cs) = some 0 := by simp [firstBadIdx, hc]
  exact cleanse_word_case4 _ h0 (badRunLen_eq_length _ h)

theorem cleanse_word_scan (s : Str)
    (h : ∃ c ∈ s, allowed_char c = true) :
    cleanse_word s =
      some ((s.dropWhile (fun c => !allowed_char c)).takeWhile allowed_char) := by
  obtain ⟨c0, hc0, ha0⟩ := h
  cases hf : firstBadIdx s with
  | none =>
    have hall := (firstBadIdx_eq_none_iff s).mp hf
    rw [cleanse_word, hf, dropWhile_disallowed_all s hall,
      takeWhile_allowed_all s hall]
  | some i =>
    by_cases hi : i = 0
    · subst hi
      have htemp : s.drop (badRunLen s) = s.dropWhile (fun d => !allowed_char d) :=
        drop_badRunLen s
      have hne : s.dropWhile (fun d => !allowed_char d) ≠ [] :=
        dropWhile_disallowed_ne_nil s c0 hc0 ha0
      have hlt : badRunLen s < s.length := by
        have hle := badRunLen_le s
        rcases Nat.eq_or_lt_of_le hle with he | hl
        · exfalso
          apply hne
          rw [← htemp, he, List.drop_length]
        · exact hl
      cases hf2 : firstBadIdx (s.drop (badRunLen s)) with
      | none =>
        rw [cleanse_word_case3 s hf hlt hf2, htemp]
        have hall2 := (firstBadIdx_eq_none_iff _).mp hf2
        rw [htemp] at hall2
        rw [takeWhile_allowed_all _ hall2]
      | some j =>
        rw [cleanse_word_case2 s j hf hlt hf2, htemp]
        have htw := firstBadIdx_some_take _ j hf2
        rw [htemp] at htw
        rw [← htw]
    · have hhead : ∃ a as, s = a :: as ∧ allowed_char a = true := by
        cases s with
        | nil => simp [firstBadIdx] at hf
        | cons a as =>
          refine ⟨a, as, rfl, ?_⟩
          by_contra hb
          simp [firstBadIdx, hb] at hf
          omega
      obtain ⟨a, as, rfl, hba⟩ := hhead
      rw [cleanse_word_case1 _ i hf hi, List.dropWhile_cons]
      simp only [hba, Bool.not_true, Bool.false_eq_true, not_false_eq_true,
        if_false]
      rw [firstBadIdx_some_take _ i hf]

theorem mapGet_mapInsert_self (cm : CounterMap) (k : Str) (v : Nat) :
    mapGet (mapInsert cm k v) k = some v := by
  induction cm with
  | nil => simp [mapInsert, mapGet]
  | cons p rest ih =>
    obtain ⟨a, b⟩ := p
    by_cases h : a = k
    · simp [mapInsert, h, mapGet]
    · simp [mapInsert, h, mapGet, ih]

theorem mapGet_mapInsert_ne (cm : CounterMap) (k k' : Str) (v : Nat)
    (h : k' ≠ k) : mapGet (mapInsert cm k v) k' = mapGet cm k' := by
  have h' : ¬(k = k') := fun hh => h hh.symm
  induction cm with
  | nil => simp [mapInsert, mapGet, h']
  | cons p rest ih =>
    obtain ⟨a, b⟩ := p
    by_cases ha : a = k
    · subst ha
      simp only [mapInsert, if_pos rfl]
      simp [mapGet, h']
    · simp only [mapInsert, if_neg ha]
      by_cases hak : a = k'
      · simp [mapGet, hak]
      · simp [mapGet, hak, ih]

theorem mem_mapInsert (cm : CounterMap) (k : Str) (v : Nat) (p : Str × Nat)
    (h : p ∈ mapInsert cm k v) : p = (k, v) ∨ p ∈ cm := by
  induction cm with
  | nil => simpa [mapInsert] using h
  | cons q rest ih =>
    obtain ⟨a, b⟩ := q
    by_cases ha : a = k
    · subst ha
      simp only [mapInsert, if_pos rfl] at h
      rcases List.mem_cons.mp h with hh | hh
      · left; exact hh
      · right; simp [hh]
    · simp only [mapInsert, if_neg ha] at h
      rcases List.mem_cons.mp h with hh | hh
      · right; simp [hh]
      · rcases ih hh with hh2 | hh2
        · left; exact hh2
        · right; simp [hh2]

theorem mapGet_mem (cm : CounterMap) (k : Str) (c : Nat)
    (h : mapGet cm k = some c) : (k, c) ∈ cm := by
  induction cm with
  | nil => simp [mapGet] at h
  | cons q rest ih =>
    obtain ⟨a, b⟩ := q
    by_cases ha : a = k
    · subst ha
      simp only [mapGet, if_pos rfl] at h
      cases h
      simp
    · simp only [mapGet, if_neg ha] at h
      simp [ih h]

theorem value_le_sumCounts (cm : CounterMap) (k : Str) (c : Nat)
    (h : (k, c) ∈ cm) : c ≤ sumCounts cm := by
  induction cm with
  | nil => cases h
  | cons q rest ih =>
    obtain ⟨a, b⟩ := q
    simp only [sumCounts, List.map_cons, List.sum_cons]
    rcases List.mem_cons.mp h with hh | hh
    · cases hh
      omega
    · have := ih hh
      simp only [sumCounts] at this
      omega

theorem sumCounts_mapInsert_none (cm : CounterMap) (k : Str) (v : Nat)
    (h : mapGet cm k = none) :
    sumCounts (mapInsert cm k v) = sumCounts cm + v := by
  induction cm with
  | nil => simp [mapInsert, sumCounts]
  | cons q rest ih =>
    obtain ⟨a, b⟩ := q
    by_cases ha : a = k
    · simp [mapGet, ha] at h
    · simp only [mapGet, if_neg ha] at h
      simp only [mapInsert, if_neg ha, sumCounts, List.map_cons, List.sum_cons]
      have := ih h
      simp only [sumCounts] at this
      omega

theorem sumCounts_mapInsert_some (cm : CounterMap) (k : Str) (v c : Nat)
    (h : mapGet cm k = some c) :
    sumCounts (mapInsert cm k v) + c = sumCounts cm + v := by
  induction cm with
  | nil => simp [mapGet] at h
  | cons q rest ih =>
    obtain ⟨a, b⟩ := q
    by_cases ha : a = k
    · subst ha
      simp only [mapGet, if_pos rfl] at h
      cases h
      simp only [mapInsert, sumCounts, eq_self_iff_true, if_true, List.map_cons,
        List.sum_cons]
      omega
    · simp only [mapGet, if_neg ha] at h
      simp only [mapInsert, if_neg ha, sumCounts, List.map_cons, List.sum_cons]
      have := ih h
      simp only [sumCounts] at this
      omega

theorem filter_isSome_map_getD_eq_filterMap (l : List Str)
    (f : Str → Option Str) :
    ((l.filter fun s => (f s).isSome).map fun s => (f s).getD []) =
      l.filterMap f := by
  induction l with
  | nil => simp
  | cons a rest ih =>
    cases hf : f a with
    | none => simp [List.filter_cons, List.filterMap_cons, hf, ih]
    | some b => simp [List.filter_cons, List.filterMap_cons, hf, ih]

theorem parse_eq_filterMap (line : Str) :
    parse_text_into_vec line =
      (split_whitespace line).filterMap
        (fun w => cleanse_word (w.map to_ascii_lowercase)) := by
  rw [parse_text_into_vec]
  exact filter_isSome_map_getD_eq_filterMap _ _

theorem reverse_piece_ok (acc : Str) (he : acc.isEmpty = false)
    (hacc : ∀ c ∈ acc, is_whitespace c = false) :
    acc.reverse ≠ [] ∧ ∀ c ∈ acc.reverse, is_whitespace c = false := by
  constructor
  · simp only [ne_eq, List.reverse_eq_nil_iff]
    intro h
    subst h
    simp at he
  · intro c hc
    exact hacc c (List.mem_reverse.mp hc)

theorem splitWsAux_pieces (s : Str) (acc : Str)
    (hacc : ∀ c ∈ acc, is_whitespace c = false) :
    ∀ p ∈ splitWsAux s acc, p ≠ [] ∧ ∀ c ∈ p, is_whitespace c = false := by
  induction s generalizing acc with
  | nil =>
    intro p hp
    simp only [splitWsAux] at hp
    by_cases he : acc.isEmpty
    · simp [he] at hp
    · rw [if_neg he, List.mem_singleton] at hp
      subst hp
      exact reverse_piece_ok acc (Bool.not_eq_true _ ▸ he) hacc
  | cons c cs ih =>
    intro p hp
    simp only [splitWsAux] at hp
    by_cases hw : is_whitespace c
    · rw [if_pos hw] at hp
      by_cases he : acc.isEmpty
      · rw [if_pos he] at hp
        exact ih [] (by simp) p hp
      · rw [if_neg he] at hp
        rcases List.mem_cons.mp hp with hh | hh
        · subst hh
          exact reverse_piece_ok acc (Bool.not_eq_true _ ▸ he) hacc
        · exact ih [] (by simp) p hh
    · rw [if_neg hw] at hp
      rw [Bool.not_eq_true] at hw
      refine ih (c :: acc) ?_ p hp
      intro d hd
      rcases List.mem_cons.mp hd with hh | hh
      · subst hh; exact hw
      · exact hacc d hh

theorem split_whitespace_pieces (line : Str) :
    ∀ p ∈ split_whitespace line, p ≠ [] ∧ ∀ c ∈ p, is_whitespace c = false :=
  splitWsAux_pieces line [] (by simp)

theorem char_toNat_ofNat_valid (n : Nat) (h : n.isValidChar) :
    (Char.ofNat n).toNat = n := by
  unfold Char.ofNat
  rw [dif_pos h]
  rfl

theorem to_ascii_lowercase_not_ws (c : Char) (h : is_whitespace c = false) :
    is_whitespace (to_ascii_lowercase c) = false := by
  rw [to_ascii_lowercase]
  by_cases hu : 'A' ≤ c ∧ c ≤ 'Z'
  · rw [if_pos hu]
    have hA : 65 ≤ c.toNat := hu.1
    have hZ : c.toNat ≤ 90 := hu.2
    have hv : (c.toNat + 32).isValidChar := Or.inl (by omega)
    have ht : (Char.ofNat (c.toNat + 32)).toNat = c.toNat + 32 :=
      char_toNat_ofNat_valid _ hv
    rw [is_whitespace, decide_eq_false_iff_not]
    rw [ht]
    omega
  · rw [if_neg hu]
    exact h

theorem calculate_counts_nil (cm : CounterMap) (w : Str) :
    calculate_counts cm [] w = some (cm, [w]) := by
  simp [calculate_counts]

theorem calculate_counts_one (cm : CounterMap) (a w : Str) :
    calculate_counts cm [a] w =
      some ((if containsKey cm (a ++ ' ' :: w) then
               mapInsert cm (a ++ ' ' :: w)
                 (((mapGet cm (a ++ ' ' :: w)).getD 0 + 1) % U32MOD)
             else mapInsert cm (a ++ ' ' :: w) 1), [w]) := by
  simp [calculate_counts, get_key_from_vec]

theorem feedTokens_nil (st : Option (CounterMap × List Str)) :
    feedTokens st [] = st := rfl

theorem feedTokens_cons (st : Option (CounterMap × List Str)) (w : Str)
    (ws : List Str) : feedTokens st (w :: ws) = feedTokens (feedWord st w) ws :=
  rfl

theorem feedTokens_ok (ws : List Str) (cm : CounterMap) (rv : List Str)
    (h : rv.length ≤ 1) :
    ∃ cm' rv', feedTokens (some (cm, rv)) ws = some (cm', rv') ∧
      rv'.length ≤ 1 := by
  induction ws generalizing cm rv with
  | nil => exact ⟨cm, rv, rfl, h⟩
  | cons w rest ih =>
    rw [feedTokens_cons]
    have hfw : feedWord (some (cm, rv)) w = calculate_counts cm rv w := rfl
    rw [hfw]
    cases rv with
    | nil =>
      rw [calculate_counts_nil]
      exact ih cm [w] (by simp)
    | cons a rv2 =>
      cases rv2 with
      | nil =>
        rw [calculate_counts_one]
        exact ih _ [w] (by simp)
      | cons b rv3 => simp at h

theorem key_inj (x : Str) : ∀ (a : Str), (∀ c ∈ x, c ≠ ' ') →
    (∀ c ∈ a, c ≠ ' ') →
    ∀ (y b : Str), x ++ ' ' :: y = a ++ ' ' :: b → x = a ∧ y = b := by
  induction x with
  | nil =>
    intro a _ ha y b h
    cases a with
    | nil =>
      simp only [List.nil_append, List.cons.injEq] at h
      exact ⟨rfl, h.2⟩
    | cons c a2 =>
      simp only [List.nil_append, List.cons_append, List.cons.injEq] at h
      exact absurd h.1.symm (ha c (by simp))
  | cons c x2 ih =>
    intro a hx ha y b h
    cases a with
    | nil =>
      simp only [List.cons_append, List.nil_append, List.cons.injEq] at h
      exact absurd h.1 (hx c (by simp))
    | cons d a2 =>
      simp only [List.cons_append, List.cons.injEq] at h
      obtain ⟨rfl, h2⟩ := h
      obtain ⟨h3, h4⟩ := ih a2 (fun e he => hx e (by simp [he]))
        (fun e he => ha e (by simp [he])) y b h2
      exact ⟨by rw [h3], h4⟩

theorem isToken_no_space (w : Str) (h : isToken w = true) :
    ∀ c ∈ w, c ≠ ' ' := by
  intro c hc heq
  rw [isToken, Bool.and_eq_true] at h
  have h2 := List.all_eq_true.mp h.2 c hc
  rw [heq] at h2
  exact absurd h2 (by decide)

theorem u32mod_pos : 0 < U32MOD := by
  simp only [U32MOD]
  omega

theorem feedTokens_hist (ws : List Str) :
    ∀ (a : Str) (cm : CounterMap),
      (∀ p ∈ cm, p.2 < U32MOD) →
      (∀ w ∈ ws, ∀ c ∈ w, c ≠ ' ') →
      (∀ c ∈ a, c ≠ ' ') →
      ∃ cm' rv', feedTokens (some (cm, [a])) ws = some (cm', rv') ∧
        (∀ p ∈ cm', p.2 < U32MOD) ∧
        ∀ x y : Str, (∀ c ∈ x, c ≠ ' ') → (∀ c ∈ y, c ≠ ' ') →
          (∀ cnt, mapGet cm (x ++ ' ' :: y) = some cnt →
              mapGet cm' (x ++ ' ' :: y) =
                some ((cnt + countAdj x y (a :: ws)) % U32MOD)) ∧
          (mapGet cm (x ++ ' ' :: y) = none →
              mapGet cm' (x ++ ' ' :: y) =
                (if countAdj x y (a :: ws) = 0 then none
                 else some (countAdj x y (a :: ws) % U32MOD))) := by
  induction ws with
  | nil =>
    intro a cm hinv _ _
    refine ⟨cm, [a], rfl, hinv, ?_⟩
    intro x y _ _
    have hzero : countAdj x y [a] = 0 := rfl
    constructor
    · intro cnt hcnt
      have hlt := hinv _ (mapGet_mem cm _ cnt hcnt)
      rw [hzero, Nat.add_zero, Nat.mod_eq_of_lt hlt]
      exact hcnt
    · intro hnone
      rw [hzero, if_pos rfl]
      exact hnone
  | cons b rest ih =>
    intro a cm hinv hws ha
    have hb : ∀ c ∈ b, c ≠ ' ' := hws b (by simp)
    have hrest : ∀ w ∈ rest, ∀ c ∈ w, c ≠ ' ' := fun w hw => hws w (by simp [hw])
    rw [feedTokens_cons]
    have hfw : feedWord (some (cm, [a])) b = calculate_counts cm [a] b := rfl
    rw [hfw, calculate_counts_one]
    cases hget : mapGet cm (a ++ ' ' :: b) with
    | some cnt0 =>
      have hck : containsKey cm (a ++ ' ' :: b) = true := by
        rw [containsKey, hget]
        rfl
      rw [if_pos hck]
      simp only [Option.getD_some]
      have hv : (cnt0 + 1) % U32MOD < U32MOD := Nat.mod_lt _ u32mod_pos
      have hinv1 : ∀ p ∈ mapInsert cm (a ++ ' ' :: b) ((cnt0 + 1) % U32MOD),
          p.2 < U32MOD := by
        intro p hp
        rcases mem_mapInsert _ _ _ p hp with hh | hh
        · rw [hh]
          exact hv
        · exact hinv p hh
      obtain ⟨cm', rv', hfeed, hinv', hform⟩ := ih b _ hinv1 hrest hb
      refine ⟨cm', rv', hfeed, hinv', ?_⟩
      intro x y hx hy
      by_cases hxy : x = a ∧ y = b
      · obtain ⟨rfl, rfl⟩ := hxy
        have hKget : mapGet (mapInsert cm (x ++ ' ' :: y) ((cnt0 + 1) % U32MOD))
            (x ++ ' ' :: y) = some ((cnt0 + 1) % U32MOD) :=
          mapGet_mapInsert_self _ _ _
        have hstep := (hform x y hx hy).1 _ hKget
        have hcadj : countAdj x y (x :: y :: rest) =
            1 + countAdj x y (y :: rest) := by
          simp [countAdj]
        constructor
        · intro cnt hcnt
          rw [hget] at hcnt
          cases hcnt
          rw [hcadj, hstep]
          congr 1
          simp only [U32MOD]
          omega
        · intro hnone
          rw [hget] at hnone
          simp at hnone
      · have hne : x ++ ' ' :: y ≠ a ++ ' ' :: b := by
          intro he
          exact hxy (key_inj x a hx ha y b he)
        have htrans : mapGet (mapInsert cm (a ++ ' ' :: b) ((cnt0 + 1) % U32MOD))
            (x ++ ' ' :: y) = mapGet cm (x ++ ' ' :: y) :=
          mapGet_mapInsert_ne _ _ _ _ hne
        have hcadj : countAdj x y (a :: b :: rest) = countAdj x y (b :: rest) := by
          have hno : ¬(a = x ∧ b = y) := fun hh => hxy ⟨hh.1.symm, hh.2.symm⟩
          simp [countAdj, hno]
        constructor
        · intro cnt hcnt
          have hres := (hform x y hx hy).1 cnt (by rw [htrans]; exact hcnt)
          rw [hcadj]
          exact hres
        · intro hnone
          have hres := (hform x y hx hy).2 (by rw [htrans]; exact hnone)
          rw [hcadj]
          exact hres
    | none =>
      have hck : containsKey cm (a ++ ' ' :: b) = false := by
        rw [containsKey, hget]
        rfl
      rw [if_neg (by simp [hck])]
      have hinv1 : ∀ p ∈ mapInsert cm (a ++ ' ' :: b) 1, p.2 < U32MOD := by
        intro p hp
        rcases mem_mapInsert _ _ _ p hp with hh | hh
        · rw [hh]
          simp only [U32MOD]
          omega
        · exact hinv p hh
      obtain ⟨cm', rv', hfeed, hinv', hform⟩ := ih b _ hinv1 hrest hb
      refine ⟨cm', rv', hfeed, hinv', ?_⟩
      intro x y hx hy
      by_cases hxy : x = a ∧ y = b
      · obtain ⟨rfl, rfl⟩ := hxy
        have hKget : mapGet (mapInsert cm (x ++ ' ' :: y) 1) (x ++ ' ' :: y) =
            some 1 := mapGet_mapInsert_self _ _ _
        have hstep := (hform x y hx hy).1 _ hKget
        have hcadj : countAdj x y (x :: y :: rest) =
            1 + countAdj x y (y :: rest) := by
          simp [countAdj]
        constructor
        · intro cnt hcnt
          rw [hget] at hcnt
          simp at hcnt
        · intro _
          rw [hcadj, if_neg (by omega)]
          exact hstep
      · have hne : x ++ ' ' :: y ≠ a ++ ' ' :: b := by
          intro he
          exact hxy (key_inj x a hx ha y b he)
        have htrans : mapGet (mapInsert cm (a ++ ' ' :: b) 1) (x ++ ' ' :: y) =
            mapGet cm (x ++ ' ' :: y) := mapGet_mapInsert_ne _ _ _ _ hne
        have hcadj : countAdj x y (a :: b :: rest) = countAdj x y (b :: rest) := by
          have hno : ¬(a = x ∧ b = y) := fun hh => hxy ⟨hh.1.symm, hh.2.symm⟩
          simp [countAdj, hno]
        constructor
        · intro cnt hcnt
          have hres := (hform x y hx hy).1 cnt (by rw [htrans]; exact hcnt)
          rw [hcadj]
          exact hres
        · intro hnone
          have hres := (hform x y hx hy).2 (by rw [htrans]; exact hnone)
          rw [hcadj]
          exact hres

theorem feedTokens_sum (ws : List Str) :
    ∀ (a : Str) (cm : CounterMap),
      sumCounts cm + ws.length < U32MOD →
      (∀ p ∈ cm, 1 ≤ p.2) →
      ∃ cm' rv', feedTokens (some (cm, [a])) ws = some (cm', rv') ∧
        sumCounts cm' = sumCounts cm + ws.length ∧ (∀ p ∈ cm', 1 ≤ p.2) := by
  induction ws with
  | nil =>
    intro a cm _ hpos
    exact ⟨cm, [a], rfl, by simp, hpos⟩
  | cons b rest ih =>
    intro a cm hbound hpos
    rw [feedTokens_cons]
    have hfw : feedWord (some (cm, [a])) b = calculate_counts cm [a] b := rfl
    rw [hfw, calculate_counts_one]
    simp only [List.length_cons] at hbound
    cases hget : mapGet cm (a ++ ' ' :: b) with
    | some cnt =>
      have hck : containsKey cm (a ++ ' ' :: b) = true := by
        rw [containsKey, hget]
        rfl
      rw [if_pos hck]
      simp only [Option.getD_some]
      have hle : cnt ≤ sumCounts cm :=
        value_le_sumCounts _ _ _ (mapGet_mem _ _ _ hget)
      have hnowrap : (cnt + 1) % U32MOD = cnt + 1 :=
        Nat.mod_eq_of_lt (by omega)
      rw [hnowrap]
      have hsum1 : sumCounts (mapInsert cm (a ++ ' ' :: b) (cnt + 1)) =
          sumCounts cm + 1 := by
        have := sumCounts_mapInsert_some cm (a ++ ' ' :: b) (cnt + 1) cnt hget
        omega
      have hpos1 : ∀ p ∈ mapInsert cm (a ++ ' ' :: b) (cnt + 1), 1 ≤ p.2 := by
        intro p hp
        rcases mem_mapInsert _ _ _ p hp with hh | hh
        · rw [hh]
          omega
        · exact hpos p hh
      obtain ⟨cm', rv', hfeed, hsum, hpos'⟩ :=
        ih b _ (by rw [hsum1]; omega) hpos1
      refine ⟨cm', rv', hfeed, ?_, hpos'⟩
      rw [hsum, hsum1]
      simp only [List.length_cons]
      omega
    | none =>
      have hck : containsKey cm (a ++ ' ' :: b) = false := by
        rw [containsKey, hget]
        rfl
      rw [if_neg (by simp [hck])]
      have hsum1 : sumCounts (mapInsert cm (a ++ ' ' :: b) 1) =
          sumCounts cm + 1 := sumCounts_mapInsert_none cm _ 1 hget
      have hpos1 : ∀ p ∈ mapInsert cm (a ++ ' ' :: b) 1, 1 ≤ p.2 := by
        intro p hp
        rcases mem_mapInsert _ _ _ p hp with hh | hh
        · rw [hh]
        · exact hpos p hh
      obtain ⟨cm', rv', hfeed, hsum, hpos'⟩ :=
        ih b _ (by rw [hsum1]; omega) hpos1
      refine ⟨cm', rv', hfeed, ?_, hpos'⟩
      rw [hsum, hsum1]
      simp only [List.length_cons]
      omega

theorem feedTokens_replicate (k : Nat) :
    ∀ (c : Nat), c < U32MOD →
      feedTokens (some ([(str "a" ++ ' ' :: str "a", c)], [str "a"]))
          (List.replicate k (str "a")) =
        some ([(str "a" ++ ' ' :: str "a", (c + k) % U32MOD)], [str "a"]) := by
  induction k with
  | zero =>
    intro c hc
    rw [List.replicate_zero, feedTokens_nil, Nat.add_zero, Nat.mod_eq_of_lt hc]
  | succ k ih =>
    intro c hc
    rw [List.replicate_succ, feedTokens_cons]
    have hfw : feedWord (some ([(str "a" ++ ' ' :: str "a", c)], [str "a"]))
        (str "a") = calculate_counts [(str "a" ++ ' ' :: str "a", c)]
          [str "a"] (str "a") := rfl
    rw [hfw, calculate_counts_one]
    have hget : mapGet [(str "a" ++ ' ' :: str "a", c)]
        (str "a" ++ ' ' :: str "a") = some c := by
      simp [mapGet]
    have hck : containsKey [(str "a" ++ ' ' :: str "a", c)]
        (str "a" ++ ' ' :: str "a") = true := by
      rw [containsKey, hget]
      rfl
    rw [if_pos hck, hget]
    simp only [Option.getD_some]
    have hins : mapInsert [(str "a" ++ ' ' :: str "a", c)]
        (str "a" ++ ' ' :: str "a") ((c + 1) % U32MOD) =
        [(str "a" ++ ' ' :: str "a", (c + 1) % U32MOD)] := by
      simp [mapInsert]
    rw [hins]
    rw [ih ((c + 1) % U32MOD) (Nat.mod_lt _ u32mod_pos)]
    rw [Nat.mod_add_mod]
    rw [show c + 1 + k = c + (k + 1) by omega]

theorem countAdj_replicate_aa (k : Nat) :
    countAdj (str "a") (str "a") (List.replicate (k + 1) (str "a")) = k := by
  induction k with
  | zero => rfl
  | succ k ih =>
    rw [List.replicate_succ]
    rw [show List.replicate (k + 1) (str "a") =
      str "a" :: List.replicate k (str "a") from List.replicate_succ ..] at ih ⊢
    simp only [countAdj]
    rw [if_pos ⟨trivial, trivial⟩, ih]
    omega

theorem runLines_ioError (i : Nat) (post : List LineRead)
    (st : CounterMap × List Str) :
    runLines i (LineRead.ioError :: post) st = Outcome.exited 9 (some i) := by
  obtain ⟨cm, rv⟩ := st
  rfl

theorem runLines_ok_step (i : Nat) (l : Str) (rest : List LineRead)
    (cm : CounterMap) (rv : List Str) (st' : CounterMap × List Str)
    (h : feedTokens (some (cm, rv)) (parse_text_into_vec l) = some st') :
    runLines i (LineRead.ok l :: rest) (cm, rv) = runLines (i + 1) rest st' := by
  rw [runLines, h]

theorem runLines_first_error (pre : List LineRead) :
    ∀ (post : List LineRead) (i : Nat) (cm : CounterMap) (rv : List Str),
      rv.length ≤ 1 →
      (∀ r ∈ pre, ∃ l, r = LineRead.ok l) →
      runLines i (pre ++ LineRead.ioError :: post) (cm, rv) =
        Outcome.exited 9 (some (i + pre.length)) := by
  induction pre with
  | nil =>
    intro post i cm rv _ _
    rw [List.nil_append, runLines_ioError]
    simp
  | cons r pre2 ih =>
    intro post i cm rv hrv hok
    obtain ⟨l, rfl⟩ := hok r (by simp)
    rw [List.cons_append]
    obtain ⟨cm', rv', hfeed, hlen⟩ :=
      feedTokens_ok (parse_text_into_vec l) cm rv hrv
    rw [runLines_ok_step i l _ cm rv _ hfeed]
    rw [ih post (i + 1) cm' rv' hlen (fun q hq => hok q (by simp [hq]))]
    have harith : i + 1 + pre2.length = i + (LineRead.ok l :: pre2).length := by
      simp only [List.length_cons]
      omega
    rw [harith]

theorem parse_tokens_valid (line : Str) :
    ∀ t ∈ parse_text_into_vec line, t ≠ [] ∧ ∀ c ∈ t, isAlnum c = true := by
  intro t ht
  rw [parse_eq_filterMap] at ht
  obtain ⟨w, hw, hcl⟩ := List.mem_filterMap.mp ht
  obtain ⟨hwne, hwns⟩ := split_whitespace_pieces line w hw
  have hlwns : ∀ c ∈ w.map to_ascii_lowercase, is_whitespace c = false := by
    intro c hc
    obtain ⟨d, hd, rfl⟩ := List.mem_map.mp hc
    exact to_ascii_lowercase_not_ws d (hwns d hd)
  by_cases hex : ∃ c ∈ w.map to_ascii_lowercase, allowed_char c = true
  · rw [cleanse_word_scan _ hex] at hcl
    cases hcl
    constructor
    · cases hdw : (w.map to_ascii_lowercase).dropWhile
          (fun c => !allowed_char c) with
      | nil =>
        obtain ⟨c0, hc0, ha0⟩ := hex
        exact absurd hdw (dropWhile_disallowed_ne_nil _ c0 hc0 ha0)
      | cons c rest =>
        have hc : allowed_char c = true := head_dropWhile_allowed _ c rest hdw
        rw [List.takeWhile_cons, if_pos hc]
        simp
    · intro c hc
      have hal : allowed_char c = true := List.mem_takeWhile_imp hc
      have hmem : c ∈ w.map to_ascii_lowercase :=
        (List.dropWhile_sublist _).subset ((List.takeWhile_sublist _).subset hc)
      have hnw : is_whitespace c = false := hlwns c hmem
      have hnsp : ¬ c = ' ' := by
        intro heq
        rw [heq] at hnw
        exact absurd hnw (by decide)
      simp only [allowed_char, decide_eq_true_eq] at hal
      simp only [isAlnum, decide_eq_true_eq]
      tauto
  · push_neg at hex
    have hlwne : w.map to_ascii_lowercase ≠ [] := by
      intro hnil
      rw [List.map_eq_nil_iff] at hnil
      exact hwne hnil
    rw [cleanse_word_all_bad _ hlwne
      (fun c hc => Bool.eq_false_iff.mpr (hex c hc))] at hcl
    simp at hcl

theorem feedTokens_overflow_input :
    feedTokens (some ([], [])) (List.replicate (U32MOD + 1) (str "a")) =
      some ([(str "a" ++ ' ' :: str "a", 0)], [str "a"]) := by
  rw [show U32MOD + 1 = (U32MOD - 1) + 1 + 1 by simp only [U32MOD]]
  rw [List.replicate_succ, List.replicate_succ, feedTokens_cons, feedTokens_cons]
  rw [show feedWord (feedWord (some ([], [])) (str "a")) (str "a") =
      some ([(str "a" ++ ' ' :: str "a", 1)], [str "a"]) by decide]
  rw [feedTokens_replicate (U32MOD - 1) 1 (by simp only [U32MOD]; omega)]
  rw [show (1 + (U32MOD - 1)) % U32MOD = 0 by simp only [U32MOD]]

/-- C1 (amended): starting from the empty buffer and empty map, feeding any
sequence of tokens makes the final map send each key `a b` to the number of
adjacent occurrences of the pair `(a, b)` reduced modulo `2 ^ 32` (equal to
the exact number whenever it is below `2 ^ 32`), with the key absent when
the pair never occurs; a leftover single buffered token produces no bigram. -/
theorem C1_accumulator_histogram_mod (ws : List Str)
    (hws : ∀ w ∈ ws, isToken w = true) (x y : Str)
    (hx : isToken x = true) (hy : isToken y = true) :
    ∃ cm rv, feedTokens (some ([], [])) ws = some (cm, rv) ∧
      mapGet cm (x ++ ' ' :: y) =
        (if countAdj x y ws = 0 then none
         else some (countAdj x y ws % U32MOD)) := by
  have hxs := isToken_no_space x hx
  have hys := isToken_no_space y hy
  cases ws with
  | nil =>
    refine ⟨[], [], rfl, ?_⟩
    have hz : countAdj x y [] = 0 := rfl
    rw [hz, if_pos rfl]
    rfl
  | cons w rest =>
    have hwsp : ∀ v ∈ rest, ∀ c ∈ v, c ≠ ' ' := fun v hv =>
      isToken_no_space v (hws v (by simp [hv]))
    have hwp : ∀ c ∈ w, c ≠ ' ' := isToken_no_space w (hws w (by simp))
    rw [feedTokens_cons]
    have hfw : feedWord (some ([], [])) w = calculate_counts [] [] w := rfl
    rw [hfw, calculate_counts_nil]
    obtain ⟨cm', rv', hfeed, _, hform⟩ :=
      feedTokens_hist rest w [] (by simp) hwsp hwp
    refine ⟨cm', rv', hfeed, ?_⟩
    exact (hform x y hxs hys).2 rfl

/-- C1 witness: the nine-token demo stream has `the quick` stored with
count 2. -/
theorem C1_accumulator_histogram_mod_witness :
    ∃ cm rv, feedTokens (some ([], []))
        [str "the", str "quick", str "brown", str "fox", str "and", str "the",
         str "quick", str "blue", str "hare"] = some (cm, rv) ∧
      mapGet cm (str "the" ++ ' ' :: str "quick") = some 2 := by
  obtain ⟨cm, rv, h1, h2⟩ := C1_accumulator_histogram_mod
    [str "the", str "quick", str "brown", str "fox", str "and", str "the",
     str "quick", str "blue", str "hare"] (by decide)
    (str "the") (str "quick") (by decide) (by decide)
  refine ⟨cm, rv, h1, ?_⟩
  rw [h2]
  decide

/-- C1 counterexample: with `2 ^ 32 + 1` copies of the token `a` the pair
`(a, a)` is adjacent `2 ^ 32` times, but the stored `u32` count has wrapped
to 0, so the map does not send the key to the number of adjacent
occurrences. -/
theorem C1_accumulator_histogram_counterexample :
    ∃ cm rv, feedTokens (some ([], []))
        (List.replicate (U32MOD + 1) (str "a")) = some (cm, rv) ∧
      mapGet cm (str "a" ++ ' ' :: str "a") ≠
        some (countAdj (str "a") (str "a")
          (List.replicate (U32MOD + 1) (str "a"))) := by
  refine ⟨_, _, feedTokens_overflow_input, ?_⟩
  rw [countAdj_replicate_aa U32MOD]
  rw [show mapGet [(str "a" ++ ' ' :: str "a", 0)] (str "a" ++ ' ' :: str "a") =
      some 0 by decide]
  simp only [U32MOD]
  decide

/-- C2: for every candidate containing at least one character in
`[a-z0-9 ]`, the cleanser strips the leading disallowed run (empty when the
first disallowed run starts at a non-zero index, so that the token is
everything before that run) and truncates the remainder at its next
disallowed run if one exists, returning it whole otherwise; both spec cases
coincide with the single boundary-scan expression below.  The claim's two
concrete examples follow (the first list spells `fox`, apostrophe, `s`). -/
theorem C2_cleanse_boundary_scan :
    (∀ s : Str, (∃ c ∈ s, allowed_char c = true) →
      cleanse_word s =
        some ((s.dropWhile (fun c => !allowed_char c)).takeWhile
          allowed_char)) ∧
    cleanse_word ['f', 'o', 'x', Char.ofNat 39, 's'] = some (str "fox") ∧
    cleanse_word (str "🥰fox!!!") = some (str "fox") := by
  refine ⟨cleanse_word_scan, by decide, by decide⟩

/-- C2 witness: a concrete instantiation of the boundary-scan equation. -/
theorem C2_cleanse_boundary_scan_witness :
    cleanse_word (str "fox!") = some (str "fox") :=
  (C2_cleanse_boundary_scan.1 (str "fox!") (by decide)).trans (by decide)

/-- C3: the rolling buffer persists across line boundaries, so the two-line
file `the quick` / `brown fox` produces exactly the bigrams `the quick`,
`quick brown`, `brown fox`, counting the pair that spans the line break. -/
theorem C3_buffer_spans_lines :
    runLines 0 [LineRead.ok (str "the quick"), LineRead.ok (str "brown fox")]
      ([], []) =
    Outcome.finished
      [(str "the quick", 1), (str "quick brown", 1), (str "brown fox", 1)] := by
  decide

/-- C4: the tokenizer splits on whitespace runs, lowercases, cleanses each
piece, keeps tokens in order and drops cleansed-away pieces without a gap
(the filterMap form), and the all-uppercase demo line tokenizes to the nine
lowercase tokens. -/
theorem C4_tokenizer_contract :
    (∀ line : Str, parse_text_into_vec line =
      (split_whitespace line).filterMap
        (fun w => cleanse_word (w.map to_ascii_lowercase))) ∧
    parse_text_into_vec (str "THE QUICK BROWN FOX AND THE QUICK BROWN HARE") =
      [str "the", str "quick", str "brown", str "fox", str "and", str "the",
       str "quick", str "brown", str "hare"] :=
  ⟨parse_eq_filterMap, by decide⟩

/-- C5: every non-empty string made only of characters outside `[a-z0-9 ]`
(emoji included) cleanses to no token. -/
theorem C5_cleanse_pure_noise (s : Str) (hne : s ≠ [])
    (h : ∀ c ∈ s, allowed_char c = false) : cleanse_word s = none :=
  cleanse_word_all_bad s hne h

/-- C5 witness: a two-emoji candidate is pure noise. -/
theorem C5_cleanse_pure_noise_witness : cleanse_word (str "🥰😍") = none :=
  C5_cleanse_pure_noise (str "🥰😍") (by decide) (by decide)

/-- C6: the cleanser is idempotent on its own output, and is the identity on
strings made only of `[a-z0-9]` characters. -/
theorem C6_cleanse_idempotent :
    (∀ s t : Str, cleanse_word s = some t → cleanse_word t = some t) ∧
    (∀ s : Str, (∀ c ∈ s, isAlnum c = true) → cleanse_word s = some s) := by
  constructor
  · intro s t hst
    by_cases hex : ∃ c ∈ s, allowed_char c = true
    · rw [cleanse_word_scan s hex] at hst
      cases hst
      apply cleanse_word_clean
      intro c hc
      exact List.mem_takeWhile_imp hc
    · cases s with
      | nil =>
        rw [show cleanse_word [] = some [] from rfl] at hst
        cases hst
        rfl
      | cons a as =>
        push_neg at hex
        rw [cleanse_word_all_bad (a :: as) (by simp)
          (fun c hc => Bool.eq_false_iff.mpr (hex c hc))] at hst
        simp at hst
  · intro s h
    apply cleanse_word_clean
    intro c hc
    have hh := h c hc
    simp only [isAlnum, decide_eq_true_eq] at hh
    simp only [allowed_char, decide_eq_true_eq]
    tauto

/-- C6 witness: re-cleansing the output of `cleanse_word "fox!"` returns it
unchanged. -/
theorem C6_cleanse_idempotent_witness :
    cleanse_word (str "fox") = some (str "fox") :=
  C6_cleanse_idempotent.1 (str "fox!") (str "fox") (by decide)

/-- C7: a missing file-path argument exits with status 9 before any line is
processed (whatever the file would have contained); a file-open failure
exits with status 9; the first line-read failure exits with status 9
reporting the 0-based index of the failing line, regardless of what follows
it (no retry, no recovery). -/
theorem C7_errors_abort_with_status9 :
    (∀ (args : List Str) (openResult : Option (List LineRead)),
        args.length < 2 → mainModel args openResult = Outcome.exited 9 none) ∧
    (∀ args : List Str, 2 ≤ args.length →
        mainModel args none = Outcome.exited 9 none) ∧
    (∀ (args : List Str) (pre post : List LineRead), 2 ≤ args.length →
        (∀ r ∈ pre, ∃ l, r = LineRead.ok l) →
        mainModel args (some (pre ++ LineRead.ioError :: post)) =
          Outcome.exited 9 (some pre.length)) := by
  refine ⟨?_, ?_, ?_⟩
  · intro args w hlt
    rw [mainModel, Config.new, if_pos hlt]
  · intro args hge
    rw [mainModel, Config.new, if_neg (by omega)]
    rfl
  · intro args pre post hge hok
    rw [mainModel, Config.new, if_neg (by omega)]
    have hrun := runLines_first_error pre post 0 [] [] (by simp) hok
    rw [Nat.zero_add] at hrun
    exact hrun

/-- C7 witness: one argument is too few; the run exits with status 9. -/
theorem C7_errors_abort_with_status9_witness :
    mainModel [str "bigram"] none = Outcome.exited 9 none :=
  C7_errors_abort_with_status9.1 [str "bigram"] none (by decide)

/-- C8: every string the tokenizer produces is a valid token, non-empty and
containing only `[a-z0-9]` characters, for every input line. -/
theorem C8_tokens_are_valid (line : Str) (t : Str)
    (h : t ∈ parse_text_into_vec line) :
    t ≠ [] ∧ ∀ c ∈ t, isAlnum c = true :=
  parse_tokens_valid line t h

/-- C8 witness: the token extracted from a noisy line is valid. -/
theorem C8_tokens_are_valid_witness :
    str "fox" ≠ [] ∧ ∀ c ∈ str "fox", isAlnum c = true :=
  C8_tokens_are_valid (str "Fox!! 🥰") (str "fox") (by decide)

/-- C9: starting from the empty buffer, feeding any token stream never hits
an `unwrap` panic (the result is `some`), and between steps the buffer holds
at most one token, so within a step it holds at most two and
`get_key_from_vec` is only ever applied to a buffer of exactly two
elements. -/
theorem C9_buffer_bounded_no_panic (ws : List Str) :
    ∃ cm rv, feedTokens (some ([], [])) ws = some (cm, rv) ∧ rv.length ≤ 1 :=
  feedTokens_ok ws [] [] (by simp)

/-- C10 (amended): for streams of at most `2 ^ 32` tokens the stored counts
sum to `n - 1` (0 for an empty stream) and every stored count is at least 1;
beyond that bound the `u32` wrap can break both facts. -/
theorem C10_count_conservation_bounded (ws : List Str)
    (hlen : ws.length ≤ U32MOD) :
    ∃ cm rv, feedTokens (some ([], [])) ws = some (cm, rv) ∧
      sumCounts cm = ws.length - 1 ∧ ∀ p ∈ cm, 1 ≤ p.2 := by
  cases ws with
  | nil => exact ⟨[], [], rfl, by simp [sumCounts], by simp⟩
  | cons w rest =>
    rw [feedTokens_cons]
    have hfw : feedWord (some ([], [])) w = calculate_counts [] [] w := rfl
    rw [hfw, calculate_counts_nil]
    simp only [List.length_cons] at hlen
    have h0 : sumCounts ([] : CounterMap) = 0 := rfl
    obtain ⟨cm', rv', hfeed, hsum, hpos⟩ :=
      feedTokens_sum rest w [] (by omega) (by simp)
    refine ⟨cm', rv', hfeed, ?_, hpos⟩
    rw [hsum, h0]
    simp only [List.length_cons]
    omega

/-- C10 witness: three tokens give total count 2, all counts positive. -/
theorem C10_count_conservation_bounded_witness :
    ∃ cm rv, feedTokens (some ([], [])) [str "a", str "b", str "c"] =
      some (cm, rv) ∧ sumCounts cm = 2 ∧ ∀ p ∈ cm, 1 ≤ p.2 := by
  obtain ⟨cm, rv, h1, h2, h3⟩ := C10_count_conservation_bounded
    [str "a", str "b", str "c"] (by decide)
  exact ⟨cm, rv, h1, by simpa using h2, h3⟩

/-- C10 counterexample: with `2 ^ 32 + 1` copies of one token the single
stored count wraps to 0, so the counts do not sum to `n - 1` and a
zero-count key appears in the map. -/
theorem C10_count_conservation_counterexample :
    ∃ cm rv, feedTokens (some ([], []))
        (List.replicate (U32MOD + 1) (str "a")) = some (cm, rv) ∧
      sumCounts cm ≠ (List.replicate (U32MOD + 1) (str "a")).length - 1 ∧
      ¬(∀ p ∈ cm, 1 ≤ p.2) := by
  refine ⟨_, _, feedTokens_overflow_input, ?_, ?_⟩
  · rw [show sumCounts [(str "a" ++ ' ' :: str "a", 0)] = 0 from rfl]
    rw [List.length_replicate]
    simp only [U32MOD]
    omega
  · intro hall
    have := hall (str "a" ++ ' ' :: str "a", 0) (by simp)
    omega
